import Mathlib

/-!
# Verification of the chatbot service's checkpoint store and rule layer

Shallow embedding of the core of the `chatbot-with-ai-agent` repository:

* `src/services/s3_memory_saver.py` — the S3-backed checkpoint store
  (`MessageEncoder`, `_deserialize_messages`, `get`, `put`);
* `src/services/chat_service.py` — the rule matcher (`_call_model`), the
  response formatter (`_format_response`) and the history reconstructor
  (`get_chat_history`);
* `main.py` — the HTTP wrapper of the history read path.

Python strings are modelled as Lean `String` (operating on the underlying
`List Char`); Python's whitespace set and `str.strip` / `str.split` /
`str.lower` semantics are reproduced explicitly.  JSON documents (and the
LangChain message objects mixed into them) are modelled by the inductive
`JVal`.  Fallible Python code (code that can raise) returns `Option` /
`Except`.  The remote blob store is a function from key to response.
-/

/-! ## Python string primitives -/

/-- Python's whitespace set for `str.strip()`:
space, tab, newline, carriage return, vertical tab, form feed. -/
def pyWs (c : Char) : Bool :=
  c = ' ' || c = '\t' || c = '\n' || c = '\r' || c = '\x0b' || c = '\x0c'

/-- Drop Python-whitespace from the left (`str.lstrip`). -/
def stripL (s : List Char) : List Char := s.dropWhile pyWs

/-- Drop Python-whitespace from the right (`str.rstrip`). -/
def stripR (s : List Char) : List Char := (stripL s.reverse).reverse

/-- Python `str.strip()`. -/
def pyStrip (s : List Char) : List Char := stripR (stripL s)

/-- ASCII lower-casing of one character (`str.lower` restricted to the ASCII
range, which covers every string literal in the program). -/
def lowerChar (c : Char) : Char :=
  if 'A' ≤ c && c ≤ 'Z' then Char.ofNat (c.toNat + 32) else c

/-- Python `str.lower()` (ASCII). -/
def pyLower (s : String) : String := ⟨s.data.map lowerChar⟩

/-- `leadsWith pat s`: `s` starts with `pat`. -/
def leadsWith : List Char → List Char → Bool
  | [], _ => true
  | _ :: _, [] => false
  | a :: as, b :: bs => (a = b) && leadsWith as bs

/-- `occursIn pat s`: `pat` occurs as a contiguous run inside `s`
(Python's `pat in s` on strings). -/
def occursIn (pat : List Char) : List Char → Bool
  | [] => leadsWith pat []
  | c :: rest => leadsWith pat (c :: rest) || occursIn pat rest

/-- Python `a in b` for strings. -/
def strIn (a b : String) : Bool := occursIn a.data b.data

/-- Python `text.split('\n\n')`: greedy left-to-right splitting at
non-overlapping occurrences of a blank line. -/
def splitNN : List Char → List (List Char)
  | [] => [[]]
  | [c] => [[c]]
  | c1 :: c2 :: rest =>
    if c1 = '\n' ∧ c2 = '\n' then [] :: splitNN rest
    else
      match splitNN (c2 :: rest) with
      | [] => [[c1]]
      | p :: ps => (c1 :: p) :: ps

/-- Python `'\n\n'.join(pieces)`. -/
def joinNN : List (List Char) → List Char
  | [] => []
  | [p] => p
  | p :: q :: ps => p ++ '\n' :: '\n' :: joinNN (q :: ps)

/-- `ChatService._format_response`: strip the text, split it into
paragraphs at blank lines, strip each paragraph, drop the empty ones and
re-join with one blank line between paragraphs. -/
def formatResponse (s : String) : String :=
  ⟨joinNN (((splitNN (pyStrip s.data)).map pyStrip).filter (fun p => !p.isEmpty))⟩

/-! ## JSON documents and message objects

`JVal` covers the JSON shapes this program stores (strings, integers,
arrays, objects) plus the two LangChain message classes that
`_deserialize_messages` reconstructs.  An `obj` is the assoc list of a JSON
object (keys unique in every document this program writes). -/

inductive JVal where
  | str (s : String)
  | num (n : Int)
  | arr (xs : List JVal)
  | obj (fields : List (String × JVal))
  | hmsg (content : String) (additionalKwargs : JVal)
  | amsg (content : String) (additionalKwargs : JVal)

/-- First-wins lookup in a JSON object's fields. -/
def lookupF (k : String) : List (String × JVal) → Option JVal
  | [] => none
  | (k2, v) :: fs => if k2 = k then some v else lookupF k fs

/-- Python truthiness of a stored value (`if checkpoint`, `if assistant_msg`):
empty strings/lists/dicts and zero are falsy; message objects are truthy. -/
def jTruthy : JVal → Bool
  | .str s => !s.isEmpty
  | .num n => n != 0
  | .arr xs => !xs.isEmpty
  | .obj fs => !fs.isEmpty
  | .hmsg _ _ => true
  | .amsg _ _ => true

/-- `.content` attribute access: defined on message objects only
(`AttributeError`, i.e. `none`, on anything else). -/
def jContent : JVal → Option String
  | .hmsg c _ => some c
  | .amsg c _ => some c
  | _ => none

/-- `isinstance(x, HumanMessage)`. -/
def isHumanJ : JVal → Bool
  | .hmsg _ _ => true
  | _ => false

/-- `isinstance(x, BaseMessage)` for the two kinds this system stores. -/
def isMsgJ : JVal → Bool
  | .hmsg _ _ => true
  | .amsg _ _ => true
  | _ => false

/-! ## The checkpoint store (`s3_memory_saver.py`) -/

/-! `MessageEncoder`: `json.dumps(-, cls=MessageEncoder)`.  Plain JSON is
emitted as is (recursing into containers); a message object becomes the
tagged object `{_type, content, additional_kwargs, type}`. -/
mutual

def encodeJ : JVal → JVal
  | .str s => .str s
  | .num n => .num n
  | .arr xs => .arr (encodeL xs)
  | .obj fs => .obj (encodeF fs)
  | .hmsg c kw =>
    .obj [("_type", .str "HumanMessage"), ("content", .str c),
          ("additional_kwargs", encodeJ kw), ("type", .str "human")]
  | .amsg c kw =>
    .obj [("_type", .str "AIMessage"), ("content", .str c),
          ("additional_kwargs", encodeJ kw), ("type", .str "ai")]

def encodeL : List JVal → List JVal
  | [] => []
  | x :: xs => encodeJ x :: encodeL xs

def encodeF : List (String × JVal) → List (String × JVal)
  | [] => []
  | (k, v) :: fs => (k, encodeJ v) :: encodeF fs

end

/-! `S3MemorySaver._deserialize_messages`.  A dict takes the message branch
exactly when its `_type` field is the tag of one of the two message classes;
`data['content']` / `data['additional_kwargs']` can raise `KeyError`, and
constructing the message validates `content : str` and
`additional_kwargs : dict`, so those failures are `none`.  Any other dict
or list is rebuilt with recursively deserialized members; everything else
is returned unchanged. -/
mutual

def deser : JVal → Option JVal
  | .str s => some (.str s)
  | .num n => some (.num n)
  | .arr xs =>
    match deserL xs with
    | some ys => some (.arr ys)
    | none => none
  | .obj fs =>
    match lookupF "_type" fs with
    | some (.str "HumanMessage") =>
      match lookupF "content" fs, lookupF "additional_kwargs" fs with
      | some (.str c), some (.obj kfs) => some (.hmsg c (.obj kfs))
      | _, _ => none
    | some (.str "AIMessage") =>
      match lookupF "content" fs, lookupF "additional_kwargs" fs with
      | some (.str c), some (.obj kfs) => some (.amsg c (.obj kfs))
      | _, _ => none
    | _ =>
      match deserF fs with
      | some gs => some (.obj gs)
      | none => none
  | .hmsg c kw => some (.hmsg c kw)
  | .amsg c kw => some (.amsg c kw)

def deserL : List JVal → Option (List JVal)
  | [] => some []
  | x :: xs =>
    match deser x, deserL xs with
    | some y, some ys => some (y :: ys)
    | _, _ => none

def deserF : List (String × JVal) → Option (List (String × JVal))
  | [] => some []
  | (k, v) :: fs =>
    match deser v, deserF fs with
    | some w, some gs => some ((k, w) :: gs)
    | _, _ => none

end

/-- The blob backend's possible answers to a `get_object` call. -/
inductive S3Resp where
  | ok (body : JVal)
  | noSuchKey
  | err

/-- `S3MemorySaver._get_s3_key`. -/
def s3Key (sessionId : String) : String := "chat_histories/" ++ sessionId ++ ".json"

/-- `metadata or {}` / `new_versions or {}`: `None` and falsy values are
replaced by the empty dict. -/
def orEmptyObj : Option JVal → JVal
  | some v => if jTruthy v then v else .obj []
  | none => .obj []

/-- The JSON body `S3MemorySaver.put` writes for one session: the record
`{state, metadata, new_versions, last_updated}` serialized through
`MessageEncoder`. -/
def putBody (data : JVal) (metadata newVersions : Option JVal) (lastUpdated : String) : JVal :=
  encodeJ (.obj [("state", data), ("metadata", orEmptyObj metadata),
                 ("new_versions", orEmptyObj newVersions),
                 ("last_updated", .str lastUpdated)])

/-- `S3MemorySaver.get`: fetch the session's object; on success parse it and
return the deserialized `state` member when the parsed document has one
(`'state' in data`), else the deserialized document itself; `NoSuchKey`
becomes `none` (absent, not an error); any other backend failure, and any
exception raised while deserializing, propagates (`Except.error`).
Python's `'state' in data` is membership for a list, substring for a
string, and a `TypeError` for a number or message object. -/
def s3get (store : String → S3Resp) (sessionId : String) : Except Unit (Option JVal) :=
  match store (s3Key sessionId) with
  | .ok body =>
    let r : Option JVal :=
      match body with
      | .obj fs =>
        match lookupF "state" fs with
        | some st => deser st
        | none => deser body
      | .arr xs =>
        -- 'state' in a list: membership test; a hit means data['state'] raises
        if xs.any (fun x => match x with | .str s => s = "state" | _ => false)
        then none else deser body
      | .str s =>
        -- 'state' in a string: substring test; a hit means data['state'] raises
        if strIn "state" s then none else deser body
      | _ => none  -- 'state' in a number or message raises TypeError
    match r with
    | some v => .ok (some v)
    | none => .error ()
  | .noSuchKey => .ok none
  | .err => .error ()

/-! ## The rule matcher (`ChatService._call_model`) -/

/-- A knowledge-base entry loaded from `qa_pairs.json`. -/
structure QAPair where
  question : String
  answer : String

/-- The topic→keywords table declared inline in `_call_model`, in its fixed
declaration (iteration) order. -/
def topicKeywords : List (String × List String) :=
  [("business hours", ["hour", "open", "close", "time", "operating", "when do you"]),
   ("password reset",
    ["password", "login", "account", "reset", "forgot",
     "recover", "change", "update", "lost", "cant log", "can\x27t log",
     "how do i reset", "how to reset", "how can i reset"]),
   ("payment methods", ["pay", "payment", "credit card", "invoice", "method", "how to pay"]),
   ("customer support", ["contact", "support", "help", "email", "phone", "reach", "speak to"]),
   ("refund policy", ["refund", "return", "money back", "guarantee", "cancel", "get money back"])]

/-- One keyword test: `f" {kw} " in f" {last_message} "`. -/
def kwHit (lastMessage kw : String) : Bool :=
  strIn (" " ++ kw ++ " ") (" " ++ lastMessage ++ " ")

/-- Phase 1 of `_call_model`: first QA pair whose lower-cased question is a
substring of the (already lower-cased) last message. -/
def exactAnswer (qaPairs : List QAPair) (lastMessage : String) : Option String :=
  (qaPairs.find? (fun p => strIn (pyLower p.question) lastMessage)).map (fun p => p.answer)

/-- Phase 2 of `_call_model`: walk the topics in declared order; on the
first topic with a keyword hit that also has a QA pair whose lower-cased
question contains the topic label, answer with the first such pair
(a topic with a hit but no such pair falls through to the next topic). -/
def topicAnswer (qaPairs : List QAPair) (lastMessage : String) : Option String :=
  topicKeywords.findSome? (fun tk =>
    if tk.2.any (fun kw => kwHit lastMessage kw) then
      match qaPairs.find? (fun p => strIn tk.1 (pyLower p.question)) with
      | some p => some p.answer
      | none => none
    else none)

/-- The refusal string of the final branch of `_call_model`. -/
def fallbackReply : String := "I can only answer questions about our business operations."

/-- The reply `_call_model` chooses for a (lower-cased) last message. -/
def ruleReply (qaPairs : List QAPair) (lastMessage : String) : String :=
  match exactAnswer qaPairs lastMessage with
  | some a => a
  | none =>
    match topicAnswer qaPairs lastMessage with
    | some a => a
    | none => fallbackReply

/-- `ChatService._call_model`: read the last state message
(`state['messages'][-1].content.lower()`; an empty list or a contentless
element raises, which the handler re-raises) and return the state messages
with exactly the chosen `AIMessage` appended. -/
def callModel (qaPairs : List QAPair) (msgs : List JVal) : Option (List JVal) :=
  match msgs.getLast? with
  | none => none
  | some m =>
    match jContent m with
    | none => none
    | some content =>
      some (msgs ++ [.amsg (ruleReply qaPairs (pyLower content)) (.obj [])])

/-! ## The history reconstructor (`ChatService.get_chat_history`) -/

/-- One entry of the transcript the endpoint returns
(`src/models/chat_history.py::Message`); timestamps are abstract clock
readings. -/
structure OutMsg where
  content : String
  role : String
  timestamp : Nat
deriving DecidableEq

/-- `src/models/chat_history.py::ChatHistoryResponse`. -/
structure HistResp where
  threadId : String
  messages : List OutMsg
  language : String
deriving DecidableEq

/-- The stride-2 loop of `get_chat_history`: `clock` models the successive
`datetime.now()` readings (one per non-skipped iteration, counted by `k`).
An even index that is not a `HumanMessage` is skipped; index `i+1`, when
present and truthy, is rendered as the assistant half of the pair via its
`.content` (which raises — `none` — on a non-message value). -/
def histWalk (clock : Nat → Nat) (xs : List JVal) (i k : Nat) : Option (List OutMsg) :=
  if h : i < xs.length then
    let m1 := xs[i]
    if isHumanJ m1 then
      let t := clock k
      match jContent m1 with
      | none => none
      | some hc =>
        let front : Option (List OutMsg) :=
          match xs[i+1]? with
          | some a =>
            if jTruthy a then
              match jContent a with
              | none => none
              | some ac => some [⟨hc, "human", t⟩, ⟨ac, "assistant", t⟩]
            else some [⟨hc, "human", t⟩]
          | none => some [⟨hc, "human", t⟩]
        match front with
        | none => none
        | some fr =>
          match histWalk clock xs (i + 2) (k + 1) with
          | none => none
          | some rest => some (fr ++ rest)
    else histWalk clock xs (i + 2) k
  else some []
termination_by xs.length - i

/-- `checkpoint.get("metadata", {}).get("language", "English")`: `none`
models an exception (`.get` on a non-dict metadata value, or a non-string
language failing the `ChatHistoryResponse` field validation). -/
def metadataLang (fs : List (String × JVal)) : Option String :=
  match lookupF "metadata" fs with
  | none => some "English"
  | some (.obj ms) =>
    match lookupF "language" ms with
    | none => some "English"
    | some (.str l) => some l
    | some _ => none
  | some _ => none

/-- `ChatService.get_chat_history`: fetch the checkpoint through the store;
an absent, falsy, non-dict or `messages`-less checkpoint yields the empty
"English" transcript; otherwise walk the stored message list in strides of
two and read the language through `metadataLang`.  A `messages` value that
is not a list mirrors Python: a string or empty dict iterates to an empty
transcript, anything else raises.  Every raised exception is logged and
re-raised (`Except.error`). -/
def getChatHistory (store : String → S3Resp) (clock : Nat → Nat) (threadId : String) :
    Except Unit HistResp :=
  match s3get store threadId with
  | .error e => .error e
  | .ok none => .ok ⟨threadId, [], "English"⟩
  | .ok (some c) =>
    match c with
    | .obj fs =>
      if fs.isEmpty then .ok ⟨threadId, [], "English"⟩
      else
        match lookupF "messages" fs with
        | none => .ok ⟨threadId, [], "English"⟩
        | some (.arr xs) =>
          match histWalk clock xs 0 0, metadataLang fs with
          | some ms, some l => .ok ⟨threadId, ms, l⟩
          | _, _ => .error ()
        | some (.str _) =>
          -- len() over a string iterates characters; none is a HumanMessage
          match metadataLang fs with
          | some l => .ok ⟨threadId, [], l⟩
          | none => .error ()
        | some (.obj gs) =>
          -- len() of a dict works; a non-empty dict then raises on msg_list[0]
          if gs.isEmpty then
            match metadataLang fs with
            | some l => .ok ⟨threadId, [], l⟩
            | none => .error ()
          else .error ()
        | some _ => .error ()  -- len() of a number or message raises
    | _ => .ok ⟨threadId, [], "English"⟩

/-- The HTTP layer of `main.py::get_chat_history`: an empty transcript maps
to 404, any exception from the service maps to 500. -/
inductive HttpHistResult where
  | ok (r : HistResp)
  | notFound
  | serverError
deriving DecidableEq

/-- `GET /chat/history/{thread_id}` (`main.py`). -/
def httpGetChatHistory (store : String → S3Resp) (clock : Nat → Nat) (threadId : String) :
    HttpHistResult :=
  match getChatHistory store clock threadId with
  | .error _ => .serverError
  | .ok r => if r.messages.isEmpty then .notFound else .ok r

/-! ## Specification-side definitions

`specStrideWalk` renders the spec's description of the reconstruction walk
("strides of 2, index 2i human or the stride is skipped, index 2i+1 the
paired assistant message, both stamped with the same reconstruction-time
timestamp") as structural recursion, to be compared with `histWalk` above.
`isPure` / `isWfMsg` delimit the values the round-trip claims quantify
over: plain JSON, and message objects whose kwargs are plain JSON dicts. -/

/-- `.content` of a message object, defaulted (used only under an
`isMsgJ` hypothesis). -/
def jContentD : JVal → String
  | .hmsg c _ => c
  | .amsg c _ => c
  | _ => ""

/-- Modelled from the spec: the stride-2 pairing walk as the spec phrases
it, consuming two stored messages per step.  `k` counts timestamp draws. -/
def specStrideWalk (clock : Nat → Nat) (k : Nat) : List JVal → List OutMsg
  | [] => []
  | [m] => if isHumanJ m then [⟨jContentD m, "human", clock k⟩] else []
  | m1 :: m2 :: rest =>
    if isHumanJ m1 then
      ⟨jContentD m1, "human", clock k⟩ :: ⟨jContentD m2, "assistant", clock k⟩ ::
        specStrideWalk clock (k + 1) rest
    else specStrideWalk clock k rest

mutual

/-- Plain JSON: no message objects anywhere inside. -/
def isPure : JVal → Bool
  | .str _ => true
  | .num _ => true
  | .arr xs => isPureL xs
  | .obj fs => isPureF fs
  | .hmsg _ _ => false
  | .amsg _ _ => false

def isPureL : List JVal → Bool
  | [] => true
  | x :: xs => isPure x && isPureL xs

def isPureF : List (String × JVal) → Bool
  | [] => true
  | (_, v) :: fs => isPure v && isPureF fs

end

/-- A well-formed stored message: one of the two supported kinds, whose
`additional_kwargs` is a plain JSON dict (as LangChain guarantees). -/
def isWfMsg : JVal → Bool
  | .hmsg _ (.obj kfs) => isPureF kfs
  | .amsg _ (.obj kfs) => isPureF kfs
  | _ => false

/-- The `state` document `ChatService._save_checkpoint` persists:
`{"messages": messages, "language": language}`. -/
def stateDoc (msgs : List JVal) (language : String) : JVal :=
  .obj [("messages", .arr msgs), ("language", .str language)]

/-! ## Helper lemmas -/

theorem find_append_of_none {α : Type} (l1 l2 : List α) (f : α → Bool)
    (h : ∀ x ∈ l1, f x = false) : (l1 ++ l2).find? f = l2.find? f := by
  induction l1 with
  | nil => rfl
  | cons a l ih =>
    have ha : f a = false := h a (by simp)
    simp only [List.cons_append, List.find?, ha]
    exact ih (fun x hx => h x (by simp [hx]))

theorem findSome_append_of_none {α β : Type} (l1 l2 : List α) (f : α → Option β)
    (h : ∀ x ∈ l1, f x = none) : (l1 ++ l2).findSome? f = l2.findSome? f := by
  induction l1 with
  | nil => rfl
  | cons a l ih =>
    have ha : f a = none := h a (by simp)
    simp only [List.cons_append, List.findSome?, ha]
    exact ih (fun x hx => h x (by simp [hx]))

theorem findSome_none_of_all {α β : Type} (l : List α) (f : α → Option β)
    (h : ∀ x ∈ l, f x = none) : l.findSome? f = none := by
  induction l with
  | nil => rfl
  | cons a l ih =>
    have ha : f a = none := h a (by simp)
    simp only [List.findSome?, ha]
    exact ih (fun x hx => h x (by simp [hx]))

theorem jContent_of_isMsg (m : JVal) (h : isMsgJ m = true) :
    jContent m = some (jContentD m) := by
  cases m <;> simp_all [isMsgJ, jContent, jContentD]

/-! ## Claims about the rule matcher -/

/-- C3: whenever the case-folded text of the inbound message contains some
QA pair's case-folded question as a substring, `_call_model` replies with
that pair's exact answer, the first such pair in table order winning; the
statement quantifies over arbitrary QA tables and messages with no
assumption on the keyword table, so the exact-match reply takes precedence
over any keyword match. -/
theorem c3_exact_substring_precedence
    (pre post : List QAPair) (p : QAPair) (msgs : List JVal) (m : JVal) (c : String)
    (hlast : msgs.getLast? = some m) (hc : jContent m = some c)
    (hpre : ∀ q ∈ pre, strIn (pyLower q.question) (pyLower c) = false)
    (hp : strIn (pyLower p.question) (pyLower c) = true) :
    callModel (pre ++ p :: post) msgs =
      some (msgs ++ [JVal.amsg p.answer (JVal.obj [])]) := by
  have hexact : exactAnswer (pre ++ p :: post) (pyLower c) = some p.answer := by
    unfold exactAnswer
    rw [find_append_of_none pre (p :: post) _ hpre]
    simp [List.find?, hp]
  simp only [callModel, hlast, hc, ruleReply, hexact]

/-- Witness for C3 at a concrete table and message. -/
theorem c3_exact_substring_precedence_witness :
    callModel [⟨"What are your business hours?", "We are open 9 to 5"⟩]
      [JVal.hmsg "What are your business hours? Thanks!" (JVal.obj [])] =
    some ([JVal.hmsg "What are your business hours? Thanks!" (JVal.obj [])] ++
      [JVal.amsg "We are open 9 to 5" (JVal.obj [])]) :=
  c3_exact_substring_precedence [] []
    ⟨"What are your business hours?", "We are open 9 to 5"⟩
    [JVal.hmsg "What are your business hours? Thanks!" (JVal.obj [])]
    (JVal.hmsg "What are your business hours? Thanks!" (JVal.obj []))
    "What are your business hours? Thanks!"
    rfl rfl (by intro q hq; simp at hq) (by decide)

/-- C7: a message matching no exact question substring and no topic
keyword gets exactly the fixed refusal string. -/
theorem c7_fallback_refusal
    (qaPairs : List QAPair) (msgs : List JVal) (m : JVal) (c : String)
    (hlast : msgs.getLast? = some m) (hc : jContent m = some c)
    (hex : ∀ q ∈ qaPairs, strIn (pyLower q.question) (pyLower c) = false)
    (hkw : ∀ tk ∈ topicKeywords, ∀ kw ∈ tk.2, kwHit (pyLower c) kw = false) :
    callModel qaPairs msgs =
      some (msgs ++ [JVal.amsg "I can only answer questions about our business operations."
        (JVal.obj [])]) := by
  have hexact : exactAnswer qaPairs (pyLower c) = none := by
    unfold exactAnswer
    have : qaPairs.find? (fun p => strIn (pyLower p.question) (pyLower c)) = none := by
      rw [List.find?_eq_none]
      intro q hq
      simp [hex q hq]
    rw [this]
    rfl
  have htopic : topicAnswer qaPairs (pyLower c) = none := by
    unfold topicAnswer
    apply findSome_none_of_all
    intro tk htk
    have : tk.2.any (fun kw => kwHit (pyLower c) kw) = false := by
      rw [List.any_eq_false]
      intro kw hkwmem
      simp [hkw tk htk kw hkwmem]
    simp [this]
  simp only [callModel, hlast, hc, ruleReply, hexact, htopic, fallbackReply]

/-- Witness for C7 on a message with no matches. -/
theorem c7_fallback_refusal_witness :
    callModel [⟨"What are your business hours?", "We are open 9 to 5"⟩]
      [JVal.hmsg "Tell me a joke" (JVal.obj [])] =
    some ([JVal.hmsg "Tell me a joke" (JVal.obj [])] ++
      [JVal.amsg "I can only answer questions about our business operations."
        (JVal.obj [])]) :=
  c7_fallback_refusal [⟨"What are your business hours?", "We are open 9 to 5"⟩]
    [JVal.hmsg "Tell me a joke" (JVal.obj [])]
    (JVal.hmsg "Tell me a joke" (JVal.obj [])) "Tell me a joke"
    rfl rfl (by decide) (by decide)

/-- C9: on a non-empty state message list (whose last element is, per the
`MessagesState` schema, a message object), `_call_model` returns the input
list with exactly one `AIMessage` appended: same length plus one, every
prior element unchanged in place. -/
theorem c9_appends_single_ai
    (qaPairs : List QAPair) (msgs : List JVal) (m : JVal)
    (hlast : msgs.getLast? = some m) (hm : isMsgJ m = true) :
    ∃ r out, callModel qaPairs msgs = some out ∧
      out = msgs ++ [JVal.amsg r (JVal.obj [])] ∧
      out.length = msgs.length + 1 ∧
      ∀ i, i < msgs.length → out[i]? = msgs[i]? := by
  refine ⟨ruleReply qaPairs (pyLower (jContentD m)),
    msgs ++ [JVal.amsg (ruleReply qaPairs (pyLower (jContentD m))) (JVal.obj [])],
    ?_, rfl, by simp, ?_⟩
  · simp only [callModel, hlast, jContent_of_isMsg m hm]
  · intro i hi
    exact List.getElem?_append_left hi

/-- Witness for C9 on a concrete two-message state. -/
theorem c9_appends_single_ai_witness :
    ∃ r out,
      callModel [] [JVal.hmsg "hi" (JVal.obj []), JVal.hmsg "again" (JVal.obj [])] =
        some out ∧
      out = [JVal.hmsg "hi" (JVal.obj []), JVal.hmsg "again" (JVal.obj [])] ++
        [JVal.amsg r (JVal.obj [])] ∧
      out.length = [JVal.hmsg "hi" (JVal.obj []), JVal.hmsg "again" (JVal.obj [])].length + 1 ∧
      ∀ i, i < [JVal.hmsg "hi" (JVal.obj []), JVal.hmsg "again" (JVal.obj [])].length →
        out[i]? = [JVal.hmsg "hi" (JVal.obj []), JVal.hmsg "again" (JVal.obj [])][i]? :=
  c9_appends_single_ai [] _ (JVal.hmsg "again" (JVal.obj [])) rfl rfl

/-- C4: with no exact question substring match, if `t` is the first topic
(in the fixed declared order) one of whose keywords occurs
space-delimited in the case-folded message, and the QA table has a pair
whose case-folded question contains `t`'s label, then `_call_model`
replies with the first such pair's answer. -/
theorem c4_keyword_topic_answer
    (t1 t2 : List (String × List String)) (t : String × List String)
    (qPre qPost : List QAPair) (p : QAPair)
    (msgs : List JVal) (m : JVal) (c : String)
    (hsplit : topicKeywords = t1 ++ t :: t2)
    (hlast : msgs.getLast? = some m) (hc : jContent m = some c)
    (hex : ∀ q ∈ qPre ++ p :: qPost, strIn (pyLower q.question) (pyLower c) = false)
    (hbefore : ∀ tk ∈ t1, ∀ kw ∈ tk.2, kwHit (pyLower c) kw = false)
    (hhit : ∃ kw ∈ t.2, kwHit (pyLower c) kw = true)
    (hqpre : ∀ q ∈ qPre, strIn t.1 (pyLower q.question) = false)
    (hp : strIn t.1 (pyLower p.question) = true) :
    callModel (qPre ++ p :: qPost) msgs =
      some (msgs ++ [JVal.amsg p.answer (JVal.obj [])]) := by
  have hexact : exactAnswer (qPre ++ p :: qPost) (pyLower c) = none := by
    unfold exactAnswer
    have : (qPre ++ p :: qPost).find? (fun q => strIn (pyLower q.question) (pyLower c))
        = none := by
      rw [List.find?_eq_none]
      intro q hq
      simp [hex q hq]
    rw [this]
    rfl
  have htopic : topicAnswer (qPre ++ p :: qPost) (pyLower c) = some p.answer := by
    unfold topicAnswer
    rw [hsplit]
    rw [findSome_append_of_none t1 (t :: t2) _ ?hnone]
    case hnone =>
      intro tk htk
      have : tk.2.any (fun kw => kwHit (pyLower c) kw) = false := by
        rw [List.any_eq_false]
        intro kw hkw
        simp [hbefore tk htk kw hkw]
      simp [this]
    have hany : t.2.any (fun kw => kwHit (pyLower c) kw) = true := by
      rw [List.any_eq_true]
      obtain ⟨kw, hkwmem, hkwhit⟩ := hhit
      exact ⟨kw, hkwmem, by simp [hkwhit]⟩
    have hfind : (qPre ++ p :: qPost).find? (fun q => strIn t.1 (pyLower q.question))
        = some p := by
      rw [find_append_of_none qPre (p :: qPost) _ hqpre]
      simp [List.find?, hp]
    simp only [List.findSome?, hany, if_true, hfind]
  simp only [callModel, hlast, hc, ruleReply, hexact, htopic]

/-- Witness for C4: "when do you open" hits the business-hours keywords
and answers with the stored business-hours pair. -/
theorem c4_keyword_topic_answer_witness :
    callModel [⟨"What are your Business Hours?", "We are open 9 to 5"⟩]
      [JVal.hmsg "When do you open tomorrow" (JVal.obj [])] =
    some ([JVal.hmsg "When do you open tomorrow" (JVal.obj [])] ++
      [JVal.amsg "We are open 9 to 5" (JVal.obj [])]) :=
  c4_keyword_topic_answer []
    [("password reset",
      ["password", "login", "account", "reset", "forgot",
       "recover", "change", "update", "lost", "cant log", "can\x27t log",
       "how do i reset", "how to reset", "how can i reset"]),
     ("payment methods", ["pay", "payment", "credit card", "invoice", "method", "how to pay"]),
     ("customer support", ["contact", "support", "help", "email", "phone", "reach", "speak to"]),
     ("refund policy", ["refund", "return", "money back", "guarantee", "cancel", "get money back"])]
    ("business hours", ["hour", "open", "close", "time", "operating", "when do you"])
    [] [] ⟨"What are your Business Hours?", "We are open 9 to 5"⟩
    [JVal.hmsg "When do you open tomorrow" (JVal.obj [])]
    (JVal.hmsg "When do you open tomorrow" (JVal.obj []))
    "When do you open tomorrow"
    (by decide) rfl rfl (by decide)
    (by intro tk htk; simp at htk)
    ⟨"open", by decide, by decide⟩
    (by intro q hq; simp at hq)
    (by decide)

theorem jTruthy_of_isMsg (m : JVal) (h : isMsgJ m = true) : jTruthy m = true := by
  cases m <;> simp_all [isMsgJ, jTruthy]

/-- The index-based stride-2 loop of `get_chat_history` computes, from any
start index, the structural pairing walk of the remaining suffix. -/
theorem histWalk_drop (clock : Nat → Nat) (xs : List JVal)
    (hwf : ∀ x ∈ xs, isMsgJ x = true) :
    ∀ n i k, xs.length - i = n →
      histWalk clock xs i k = some (specStrideWalk clock k (xs.drop i)) := by
  intro n
  induction n using Nat.strong_induction_on with
  | _ n ih =>
    intro i k hn
    by_cases h : i < xs.length
    · have hdrop : xs.drop i = xs[i] :: xs.drop (i + 1) := List.drop_eq_getElem_cons h
      have hm1 : isMsgJ xs[i] = true := hwf _ (List.getElem_mem h)
      have hrec : histWalk clock xs (i + 2) (k + 1) =
          some (specStrideWalk clock (k + 1) (xs.drop (i + 2))) :=
        ih (xs.length - (i + 2)) (by omega) (i + 2) (k + 1) rfl
      have hrec0 : histWalk clock xs (i + 2) k =
          some (specStrideWalk clock k (xs.drop (i + 2))) :=
        ih (xs.length - (i + 2)) (by omega) (i + 2) k rfl
      by_cases hh : isHumanJ xs[i] = true
      · have hcont : jContent xs[i] = some (jContentD xs[i]) := jContent_of_isMsg _ hm1
        by_cases h2 : i + 1 < xs.length
        · have hdrop2 : xs.drop (i + 1) = xs[i + 1] :: xs.drop (i + 2) :=
            List.drop_eq_getElem_cons h2
          have hm2 : isMsgJ xs[i + 1] = true := hwf _ (List.getElem_mem h2)
          have hcont2 : jContent xs[i + 1] = some (jContentD xs[i + 1]) :=
            jContent_of_isMsg _ hm2
          rw [histWalk]
          simp only [dif_pos h, hh, if_true, hcont, List.getElem?_eq_getElem h2,
            jTruthy_of_isMsg _ hm2, if_true, hcont2, hrec]
          rw [hdrop, hdrop2]
          simp [specStrideWalk, hh]
        · have hdrop2 : xs.drop (i + 1) = [] := by
            simp [List.drop_eq_nil_iff]; omega
          have hnone : xs[i + 1]? = none := List.getElem?_eq_none (by omega)
          have hdrop3 : xs.drop (i + 2) = [] := by
            simp [List.drop_eq_nil_iff]; omega
          rw [histWalk]
          simp only [dif_pos h, hh, if_true, hcont, hnone, hrec]
          rw [hdrop, hdrop2, hdrop3]
          simp [specStrideWalk, hh]
      · rw [histWalk]
        simp only [dif_pos h, hh, if_false, hrec0]
        rw [hdrop]
        rcases hd : xs.drop (i + 1) with _ | ⟨m2, rest⟩
        · have : xs.drop (i + 2) = [] := by
            have : xs.length ≤ i + 1 := by
              by_contra hlt
              have := List.drop_eq_getElem_cons (l := xs) (n := i + 1) (by omega)
              rw [hd] at this
              exact List.noConfusion this
            simp [List.drop_eq_nil_iff]; omega
          rw [this]
          simp [specStrideWalk, hh]
        · have : xs.drop (i + 2) = rest := by
            have := List.drop_drop 1 (i + 1) xs
            simp only [hd] at this
            simpa using this.symm
          rw [this]
          simp [specStrideWalk, hh]
    · rw [histWalk]
      have hd : xs.drop i = [] := by simp [List.drop_eq_nil_iff]; omega
      simp [dif_neg h, hd, specStrideWalk]

/-- C6: on a stored flat list of message objects, the reconstruction loop
walks strides of 2: index `2i` is rendered as the human half (the whole
stride being skipped when that element is not a `HumanMessage`), index
`2i+1` — when present — as the paired assistant half, and both halves of a
pair carry the same reconstruction-time clock reading. -/
theorem c6_stride_pairing (clock : Nat → Nat) (xs : List JVal)
    (hwf : ∀ x ∈ xs, isMsgJ x = true) :
    histWalk clock xs 0 0 = some (specStrideWalk clock 0 xs) := by
  simpa using histWalk_drop clock xs hwf xs.length 0 0 rfl

/-- Witness for C6: a five-element stored list with a skipped stride; the
two halves of each rendered pair share a timestamp, and the trailing human
message stands alone. -/
theorem c6_stride_pairing_witness :
    histWalk (fun k => k) [JVal.hmsg "a" (JVal.obj []), JVal.amsg "b" (JVal.obj []),
      JVal.amsg "c" (JVal.obj []), JVal.hmsg "d" (JVal.obj []),
      JVal.hmsg "e" (JVal.obj [])] 0 0 =
    some [⟨"a", "human", 0⟩, ⟨"b", "assistant", 0⟩, ⟨"e", "human", 1⟩] := by
  rw [c6_stride_pairing (fun k => k) _ (by decide)]
  rfl

mutual

theorem encode_pure : ∀ v : JVal, isPure v = true → encodeJ v = v
  | .str _, _ => rfl
  | .num _, _ => rfl
  | .arr xs, h => by
    simp only [encodeJ]
    rw [encodeL_pure xs (by simpa [isPure] using h)]
  | .obj fs, h => by
    simp only [encodeJ]
    rw [encodeF_pure fs (by simpa [isPure] using h)]
  | .hmsg _ _, h => by simp [isPure] at h
  | .amsg _ _, h => by simp [isPure] at h

theorem encodeL_pure : ∀ xs : List JVal, isPureL xs = true → encodeL xs = xs
  | [], _ => rfl
  | x :: xs, h => by
    have hx : isPure x = true := by
      have := h
      simp [isPureL, Bool.and_eq_true] at this
      exact this.1
    have hxs : isPureL xs = true := by
      have := h
      simp [isPureL, Bool.and_eq_true] at this
      exact this.2
    simp only [encodeL]
    rw [encode_pure x hx, encodeL_pure xs hxs]

theorem encodeF_pure : ∀ fs : List (String × JVal), isPureF fs = true → encodeF fs = fs
  | [], _ => rfl
  | (k, v) :: fs, h => by
    have hv : isPure v = true := by
      have := h
      simp [isPureF, Bool.and_eq_true] at this
      exact this.1
    have hfs : isPureF fs = true := by
      have := h
      simp [isPureF, Bool.and_eq_true] at this
      exact this.2
    simp only [encodeF]
    rw [encode_pure v hv, encodeF_pure fs hfs]

end

/-- Decoding inverts encoding on a well-formed message object. -/
theorem deser_encode_wf (m : JVal) (h : isWfMsg m = true) :
    deser (encodeJ m) = some m := by
  match m with
  | .hmsg c kw =>
    match kw with
    | .obj kfs =>
      have hp : isPureF kfs = true := by simpa [isWfMsg] using h
      simp [encodeJ, deser, lookupF, encodeF_pure kfs hp]
    | .str _ => simp [isWfMsg] at h
    | .num _ => simp [isWfMsg] at h
    | .arr _ => simp [isWfMsg] at h
    | .hmsg _ _ => simp [isWfMsg] at h
    | .amsg _ _ => simp [isWfMsg] at h
  | .amsg c kw =>
    match kw with
    | .obj kfs =>
      have hp : isPureF kfs = true := by simpa [isWfMsg] using h
      simp [encodeJ, deser, lookupF, encodeF_pure kfs hp]
    | .str _ => simp [isWfMsg] at h
    | .num _ => simp [isWfMsg] at h
    | .arr _ => simp [isWfMsg] at h
    | .hmsg _ _ => simp [isWfMsg] at h
    | .amsg _ _ => simp [isWfMsg] at h
  | .str _ => simp [isWfMsg] at h
  | .num _ => simp [isWfMsg] at h
  | .arr _ => simp [isWfMsg] at h
  | .obj _ => simp [isWfMsg] at h

/-- Decoding inverts encoding elementwise on a list of well-formed
message objects. -/
theorem deserL_encodeL_wf (msgs : List JVal) (h : ∀ m ∈ msgs, isWfMsg m = true) :
    deserL (encodeL msgs) = some msgs := by
  induction msgs with
  | nil => rfl
  | cons m msgs ih =>
    simp only [encodeL, deserL]
    rw [deser_encode_wf m (h m (by simp)), ih (fun x hx => h x (by simp [hx]))]

/-- Decoding inverts encoding on the persisted `state` document. -/
theorem deser_encode_state (msgs : List JVal) (language : String)
    (hwf : ∀ m ∈ msgs, isWfMsg m = true) :
    deser (encodeJ (stateDoc msgs language)) = some (stateDoc msgs language) := by
  simp [stateDoc, encodeJ, encodeF, deser, lookupF, deserF, deserL_encodeL_wf msgs hwf]

/-- `get` after `put`: a store holding the body `put` wrote for this
session returns exactly the deserialized `state` member. -/
theorem s3get_after_put (store : String → S3Resp) (sid : String)
    (msgs : List JVal) (language lu : String) (md nv : Option JVal)
    (hstore : store (s3Key sid) = .ok (putBody (stateDoc msgs language) md nv lu))
    (hwf : ∀ m ∈ msgs, isWfMsg m = true) :
    s3get store sid = .ok (some (stateDoc msgs language)) := by
  have hst : deser (JVal.obj [("messages", JVal.arr (encodeL msgs)),
      ("language", JVal.str language)]) = some (stateDoc msgs language) := by
    simpa [stateDoc, encodeJ, encodeF] using deser_encode_state msgs language hwf
  unfold s3get
  rw [hstore]
  simp only [putBody, encodeJ, encodeF, lookupF]
  simp [hst]

/-- C5: the tagged-union codec is exact on the two supported message
kinds — decoding inverts encoding on any well-formed human/assistant
message — and consequently a message list written through `put` is read
back by `get` as a structurally equal list (same kinds, contents and
kwargs) inside the returned `state` document. -/
theorem c5_put_get_roundtrip :
    (∀ m : JVal, isWfMsg m = true → deser (encodeJ m) = some m) ∧
    ∀ (store : String → S3Resp) (sid : String) (msgs : List JVal)
      (language lu : String) (md nv : Option JVal),
      store (s3Key sid) = S3Resp.ok (putBody (stateDoc msgs language) md nv lu) →
      (∀ m ∈ msgs, isWfMsg m = true) →
      s3get store sid = Except.ok (some (stateDoc msgs language)) :=
  ⟨deser_encode_wf, fun store sid msgs language lu md nv h hwf =>
    s3get_after_put store sid msgs language lu md nv h hwf⟩

/-- Witness for C5 on a concrete two-message transcript with non-empty
kwargs. -/
theorem c5_put_get_roundtrip_witness :
    deser (encodeJ (JVal.hmsg "hi" (JVal.obj [("k", JVal.str "v")]))) =
      some (JVal.hmsg "hi" (JVal.obj [("k", JVal.str "v")])) ∧
    s3get
      (fun key =>
        if key = s3Key "s1" then
          S3Resp.ok (putBody
            (stateDoc [JVal.hmsg "hi" (JVal.obj []), JVal.amsg "yo" (JVal.obj [])] "English")
            (some (JVal.obj [("language", JVal.str "English")]))
            (some (JVal.obj [("messages", JVal.num 2)])) "2024-01-01T00:00:00")
        else S3Resp.noSuchKey)
      "s1" =
      Except.ok (some (stateDoc
        [JVal.hmsg "hi" (JVal.obj []), JVal.amsg "yo" (JVal.obj [])] "English")) :=
  ⟨c5_put_get_roundtrip.1 _ (by decide),
   c5_put_get_roundtrip.2 _ "s1" _ "English" "2024-01-01T00:00:00" _ _ rfl (by decide)⟩

theorem isMsgJ_of_isWfMsg (m : JVal) (h : isWfMsg m = true) : isMsgJ m = true := by
  cases m <;> first
    | rfl
    | simp [isWfMsg] at h

/-- Reading history after `put`: for a record the service's save path
wrote, `get_chat_history` renders the stride-2 walk of the stored messages
and the language defaults to "English" — whatever the record's metadata
says — because `S3MemorySaver.get` returns only the `state` member, which
carries no `metadata` key. -/
theorem getHistory_after_put (store : String → S3Resp) (clock : Nat → Nat)
    (tid : String) (msgs : List JVal) (language lu : String) (md nv : Option JVal)
    (hstore : store (s3Key tid) = S3Resp.ok (putBody (stateDoc msgs language) md nv lu))
    (hwf : ∀ m ∈ msgs, isWfMsg m = true) :
    getChatHistory store clock tid =
      Except.ok ⟨tid, specStrideWalk clock 0 msgs, "English"⟩ := by
  have hget := s3get_after_put store tid msgs language lu md nv hstore hwf
  have hmsg : ∀ x ∈ msgs, isMsgJ x = true :=
    fun x hx => isMsgJ_of_isWfMsg x (hwf x hx)
  have hwalk : histWalk clock msgs 0 0 = some (specStrideWalk clock 0 msgs) := by
    simpa using histWalk_drop clock msgs hmsg msgs.length 0 0 rfl
  unfold getChatHistory
  rw [hget]
  simp [stateDoc, lookupF, metadataLang, hwalk]

/-- Counterexample to C1 as stated: a stored record whose metadata maps
`language` to "French" (and whose state says "French" too), for which
`get_chat_history` nonetheless answers "English": `S3MemorySaver.get`
strips the record down to its `state` member, so the metadata language is
never seen. -/
theorem c1_metadata_language_counterexample :
    (match putBody (stateDoc [JVal.hmsg "hi" (JVal.obj [])] "French")
        (some (JVal.obj [("language", JVal.str "French")])) none "2024-01-01" with
     | JVal.obj fs => lookupF "metadata" fs
     | _ => none) = some (JVal.obj [("language", JVal.str "French")]) ∧
    getChatHistory
      (fun key =>
        if key = s3Key "t1" then
          S3Resp.ok (putBody (stateDoc [JVal.hmsg "hi" (JVal.obj [])] "French")
            (some (JVal.obj [("language", JVal.str "French")])) none "2024-01-01")
        else S3Resp.noSuchKey)
      (fun _ => 0) "t1" =
      Except.ok ⟨"t1", [⟨"hi", "human", 0⟩], "English"⟩ := by
  constructor
  · rfl
  · rw [getHistory_after_put _ (fun _ => 0) "t1" [JVal.hmsg "hi" (JVal.obj [])]
      "French" "2024-01-01" (some (JVal.obj [("language", JVal.str "French")])) none
      rfl (by decide)]
    rfl

/-- C1 as amended: for every record written by the service's save path,
`get_chat_history` answers language "English" regardless of the language
recorded in the checkpoint metadata (or state), because the store's `get`
returns only the record's `state` member and the language is read from a
`metadata` key that the state never carries. -/
theorem c1_language_always_default (store : String → S3Resp) (clock : Nat → Nat)
    (tid : String) (msgs : List JVal) (language lu : String) (md nv : Option JVal)
    (hstore : store (s3Key tid) = S3Resp.ok (putBody (stateDoc msgs language) md nv lu))
    (hwf : ∀ m ∈ msgs, isWfMsg m = true) :
    ∃ ms, getChatHistory store clock tid = Except.ok ⟨tid, ms, "English"⟩ :=
  ⟨specStrideWalk clock 0 msgs,
    getHistory_after_put store clock tid msgs language lu md nv hstore hwf⟩

/-- Witness for the amended C1: metadata language "German", result
language "English". -/
theorem c1_language_always_default_witness :
    ∃ ms, getChatHistory
      (fun key =>
        if key = s3Key "w1" then
          S3Resp.ok (putBody (stateDoc [JVal.hmsg "hallo" (JVal.obj [])] "German")
            (some (JVal.obj [("language", JVal.str "German")]))
            (some (JVal.obj [("messages", JVal.num 1)])) "2024-02-02")
        else S3Resp.noSuchKey)
      (fun _ => 7) "w1" = Except.ok ⟨"w1", ms, "English"⟩ :=
  c1_language_always_default _ (fun _ => 7) "w1" [JVal.hmsg "hallo" (JVal.obj [])]
    "German" "2024-02-02" (some (JVal.obj [("language", JVal.str "German")]))
    (some (JVal.obj [("messages", JVal.num 1)])) rfl (by decide)

/-- Counterexample to C2 as stated: with a backend that fails (other than
record-absent), `get_chat_history` does not swallow the failure into an
empty transcript — it re-raises, and the HTTP layer turns it into a 500. -/
theorem c2_swallow_counterexample :
    getChatHistory (fun _ => S3Resp.err) (fun _ => 0) "t9" = Except.error () ∧
    getChatHistory (fun _ => S3Resp.err) (fun _ => 0) "t9" ≠
      Except.ok ⟨"t9", [], "English"⟩ ∧
    httpGetChatHistory (fun _ => S3Resp.err) (fun _ => 0) "t9" =
      HttpHistResult.serverError := by
  refine ⟨rfl, ?_, rfl⟩
  intro h
  exact Except.noConfusion
    (h : (Except.error () : Except Unit HistResp) =
      Except.ok ⟨"t9", [], "English"⟩)

/-- C2 as amended: a backend retrieval failure other than record-absent
propagates out of `get_chat_history` (and surfaces as a 500 at the HTTP
layer) instead of being swallowed; the swallow-into-empty behaviour lives
in the session-cache load path (`get_or_create_chat_history`), not here. -/
theorem c2_storage_error_propagates (store : String → S3Resp) (clock : Nat → Nat)
    (tid : String) (hstore : store (s3Key tid) = S3Resp.err) :
    getChatHistory store clock tid = Except.error () ∧
    httpGetChatHistory store clock tid = HttpHistResult.serverError := by
  have hs : s3get store tid = Except.error () := by
    unfold s3get
    rw [hstore]
  have hg : getChatHistory store clock tid = Except.error () := by
    unfold getChatHistory
    rw [hs]
  refine ⟨hg, ?_⟩
  unfold httpGetChatHistory
  rw [hg]

/-- Witness for the amended C2. -/
theorem c2_storage_error_propagates_witness :
    getChatHistory (fun _ => S3Resp.err) (fun _ => 3) "w2" = Except.error () ∧
    httpGetChatHistory (fun _ => S3Resp.err) (fun _ => 3) "w2" =
      HttpHistResult.serverError :=
  c2_storage_error_propagates (fun _ => S3Resp.err) (fun _ => 3) "w2" rfl


/-- Role parity of the pairing walk: even positions are human, odd
positions assistant. -/
theorem specWalk_parity (clock : Nat → Nat) :
    ∀ (xs : List JVal) (k i : Nat) (h : i < (specStrideWalk clock k xs).length),
      (specStrideWalk clock k xs)[i].role =
        (if i % 2 = 0 then "human" else "assistant")
  | [], k, i, h => by simp [specStrideWalk] at h
  | [m], k, i, h => by
    by_cases hm : isHumanJ m = true
    · have hi : i = 0 := by
        simp [specStrideWalk, hm] at h
        omega
      subst hi
      simp [specStrideWalk, hm]
    · simp [specStrideWalk, hm] at h
  | m1 :: m2 :: rest, k, i, h => by
    by_cases hm : isHumanJ m1 = true
    · match i with
      | 0 => simp [specStrideWalk, hm]
      | 1 => simp [specStrideWalk, hm]
      | (l + 2) =>
        have hlen : l < (specStrideWalk clock (k + 1) rest).length := by
          simp [specStrideWalk, hm] at h
          omega
        have ih := specWalk_parity clock rest (k + 1) l hlen
        have hmod : (l + 2) % 2 = l % 2 := by omega
        simp [specStrideWalk, hm, hmod]
        exact ih
    · have hlen : i < (specStrideWalk clock k rest).length := by
        simpa [specStrideWalk, hm] using h
      have ih := specWalk_parity clock rest k i hlen
      simp [specStrideWalk, hm]
      exact ih

/-- C10: for a transcript reconstructed from a record the service's save
path wrote (so every stored element is a message object), every even
index carries role "human", every odd index role "assistant", and a human
entry not followed by an assistant entry can only be the last element. -/
theorem c10_role_parity (store : String → S3Resp) (clock : Nat → Nat)
    (tid : String) (msgs : List JVal) (language lu : String) (md nv : Option JVal)
    (resp : HistResp)
    (hstore : store (s3Key tid) = S3Resp.ok (putBody (stateDoc msgs language) md nv lu))
    (hwf : ∀ m ∈ msgs, isWfMsg m = true)
    (hresp : getChatHistory store clock tid = Except.ok resp) :
    ∀ i (h : i < resp.messages.length),
      (resp.messages[i].role = if i % 2 = 0 then "human" else "assistant") ∧
      (∀ h2 : i + 1 < resp.messages.length,
        resp.messages[i].role = "human" → resp.messages[i + 1].role = "assistant") := by
  have hget := getHistory_after_put store clock tid msgs language lu md nv hstore hwf
  rw [hget] at hresp
  obtain rfl := Except.ok.inj hresp
  intro i h
  refine ⟨specWalk_parity clock msgs 0 i h, ?_⟩
  intro h2 hhuman
  have hpar := specWalk_parity clock msgs 0 (i + 1) h2
  have hieven : i % 2 = 0 := by
    by_contra hodd
    have hpi := specWalk_parity clock msgs 0 i h
    rw [if_neg hodd] at hpi
    rw [hpi] at hhuman
    exact absurd hhuman (by decide)
  have hnext : (i + 1) % 2 ≠ 0 := by omega
  rwa [if_neg hnext] at hpar

/-- Witness for C10 on a three-message stored transcript (with a trailing
unpaired human message), checked at the concrete indices 0, 1 and 2. -/
theorem c10_role_parity_witness :
    (([⟨"a", "human", 0⟩, ⟨"b", "assistant", 0⟩,
        ⟨"c", "human", 1⟩] : List OutMsg)[0].role =
      if 0 % 2 = 0 then "human" else "assistant") ∧
    (([⟨"a", "human", 0⟩, ⟨"b", "assistant", 0⟩,
        ⟨"c", "human", 1⟩] : List OutMsg)[1].role =
      if 1 % 2 = 0 then "human" else "assistant") ∧
    (([⟨"a", "human", 0⟩, ⟨"b", "assistant", 0⟩,
        ⟨"c", "human", 1⟩] : List OutMsg)[0].role = "human" →
      ([⟨"a", "human", 0⟩, ⟨"b", "assistant", 0⟩,
        ⟨"c", "human", 1⟩] : List OutMsg)[1].role = "assistant") := by
  have hrespeq : getChatHistory
      (fun key =>
        if key = s3Key "w3" then
          S3Resp.ok (putBody (stateDoc [JVal.hmsg "a" (JVal.obj []),
            JVal.amsg "b" (JVal.obj []), JVal.hmsg "c" (JVal.obj [])] "English")
            none none "2024-03-03")
        else S3Resp.noSuchKey)
      (fun k => k) "w3" =
      Except.ok ⟨"w3", [⟨"a", "human", 0⟩, ⟨"b", "assistant", 0⟩,
        ⟨"c", "human", 1⟩], "English"⟩ := by
    rw [getHistory_after_put _ (fun k => k) "w3"
      [JVal.hmsg "a" (JVal.obj []), JVal.amsg "b" (JVal.obj []),
        JVal.hmsg "c" (JVal.obj [])]
      "English" "2024-03-03" none none rfl (by decide)]
    rfl
  have happ := c10_role_parity _ (fun k => k) "w3"
    [JVal.hmsg "a" (JVal.obj []), JVal.amsg "b" (JVal.obj []), JVal.hmsg "c" (JVal.obj [])]
    "English" "2024-03-03" none none
    ⟨"w3", [⟨"a", "human", 0⟩, ⟨"b", "assistant", 0⟩, ⟨"c", "human", 1⟩], "English"⟩
    rfl (by decide) hrespeq
  exact ⟨(happ 0 (by decide)).1, (happ 1 (by decide)).1,
    fun hh => (happ 0 (by decide)).2 (by decide) hh⟩


/-! ## Facts about Python `strip` -/

theorem stripL_cons_head (c : Char) (l : List Char) (h : pyWs c = false) :
    stripL (c :: l) = c :: l := by
  simp [stripL, List.dropWhile_cons, h]

theorem stripL_head_not_ws (s : List Char) :
    ∀ c rest, stripL s = c :: rest → pyWs c = false := by
  induction s with
  | nil => intro c rest h; simp [stripL] at h
  | cons a l ih =>
    intro c rest h
    by_cases ha : pyWs a = true
    · rw [stripL, List.dropWhile_cons, if_pos ha] at h
      exact ih c rest h
    · rw [stripL, List.dropWhile_cons, if_neg ha] at h
      cases h
      simpa using ha

theorem stripL_idem (s : List Char) : stripL (stripL s) = stripL s := by
  rcases h : stripL s with _ | ⟨c, rest⟩
  · rfl
  · exact stripL_cons_head c rest (stripL_head_not_ws s c rest h)

theorem stripL_decomp (s : List Char) : ∃ t, s = t ++ stripL s :=
  ⟨s.takeWhile pyWs, (List.takeWhile_append_dropWhile pyWs s).symm⟩

theorem stripR_decomp (s : List Char) : ∃ u, s = stripR s ++ u := by
  obtain ⟨t, ht⟩ := stripL_decomp s.reverse
  refine ⟨t.reverse, ?_⟩
  have := congrArg List.reverse ht
  simpa [stripR, List.reverse_append] using this

theorem stripR_idem (s : List Char) : stripR (stripR s) = stripR s := by
  simp [stripR, stripL_idem]

theorem stripR_getLast_not_ws (s : List Char) :
    ∀ c rest, stripR s = c :: rest → (c :: rest).getLast? = some d → pyWs d = false := by
  intro c rest h hd
  have h1 : (stripL s.reverse).head? = some d := by
    have : (stripR s).getLast? = some d := by rw [h]; exact hd
    rw [stripR] at this
    rwa [List.getLast?_reverse] at this
  rcases h2 : stripL s.reverse with _ | ⟨e, r2⟩
  · rw [h2] at h1; simp at h1
  · rw [h2] at h1
    simp at h1
    subst h1
    exact stripL_head_not_ws s.reverse e r2 h2

theorem stripL_stripR_of_headok (s : List Char)
    (hs : ∀ c rest, s = c :: rest → pyWs c = false) :
    stripL (stripR s) = stripR s := by
  rcases h : stripR s with _ | ⟨c, rest⟩
  · rfl
  · obtain ⟨u, hu⟩ := stripR_decomp s
    rw [h] at hu
    have hc : pyWs c = false := by
      rcases s with _ | ⟨a, l⟩
      · simp at hu
      · have := hs a l rfl
        rw [List.cons_append] at hu
        cases hu
        exact this
    exact stripL_cons_head c rest hc

theorem pyStrip_idem (s : List Char) : pyStrip (pyStrip s) = pyStrip s := by
  unfold pyStrip
  have h1 : stripL (stripR (stripL s)) = stripR (stripL s) := by
    apply stripL_stripR_of_headok
    intro c rest h
    exact stripL_head_not_ws s c rest h
  rw [h1, stripR_idem]

theorem pyStrip_head_not_ws (s : List Char) (c : Char) (rest : List Char)
    (h : pyStrip s = c :: rest) : pyWs c = false := by
  rw [pyStrip] at h
  obtain ⟨u, hu⟩ := stripR_decomp (stripL s)
  rw [h] at hu
  exact stripL_head_not_ws s c (rest ++ u) (by simpa using hu)

theorem pyStrip_getLast_not_ws (s : List Char) (c d : Char) (rest : List Char)
    (h : pyStrip s = c :: rest) (hd : (c :: rest).getLast? = some d) : pyWs d = false := by
  rw [pyStrip] at h
  exact stripR_getLast_not_ws (stripL s) c rest h hd

theorem pyStrip_fix_of_clean (l : List Char)
    (hh : ∀ c, l.head? = some c → pyWs c = false)
    (hl : ∀ c, l.getLast? = some c → pyWs c = false) :
    pyStrip l = l := by
  have h1 : stripL l = l := by
    rcases l with _ | ⟨c, rest⟩
    · rfl
    · exact stripL_cons_head c rest (hh c rfl)
  have h2 : stripR l = l := by
    rcases hrev : l.reverse with _ | ⟨c, r⟩
    · have : l = [] := by simpa using congrArg List.reverse hrev
      simp [this, stripR, stripL]
    · have hc : pyWs c = false := by
        apply hl c
        rw [← List.head?_reverse, hrev]
        rfl
      have : l = (c :: r).reverse := by
        have := congrArg List.reverse hrev
        simpa using this
      rw [stripR, hrev, stripL_cons_head c r hc, ← this]
  rw [pyStrip, h1, h2]

/-! ## Facts about substring occurrence -/

theorem occursIn_nil_pat (s : List Char) : occursIn [] s = true := by
  cases s <;> simp [occursIn, leadsWith]

theorem leadsWith_append (pat s t : List Char) (h : leadsWith pat s = true) :
    leadsWith pat (s ++ t) = true := by
  induction pat generalizing s with
  | nil => rfl
  | cons a pa ih =>
    rcases s with _ | ⟨b, sb⟩
    · simp [leadsWith] at h
    · rw [leadsWith, Bool.and_eq_true] at h
      rw [List.cons_append, leadsWith, Bool.and_eq_true]
      exact ⟨h.1, ih sb h.2⟩

theorem occursIn_append_right (pat s t : List Char) (h : occursIn pat t = true) :
    occursIn pat (s ++ t) = true := by
  induction s with
  | nil => simpa using h
  | cons c s ih =>
    rw [List.cons_append, occursIn, Bool.or_eq_true]
    exact Or.inr ih

theorem occursIn_append_left (pat s t : List Char) (h : occursIn pat s = true) :
    occursIn pat (s ++ t) = true := by
  induction s with
  | nil =>
    rw [occursIn] at h
    have : pat = [] := by
      cases pat
      · rfl
      · simp [leadsWith] at h
    subst this
    exact occursIn_nil_pat _
  | cons c s ih =>
    rw [occursIn, Bool.or_eq_true] at h
    rw [List.cons_append, occursIn, Bool.or_eq_true]
    rcases h with h | h
    · exact Or.inl (by rw [← List.cons_append]; exact leadsWith_append pat (c :: s) t h)
    · exact Or.inr (ih h)

/-- An occurrence inside the stripped string is an occurrence in the
original. -/
theorem occursIn_pyStrip_mono (pat s : List Char)
    (h : occursIn pat (pyStrip s) = true) : occursIn pat s = true := by
  obtain ⟨u, hu⟩ := stripR_decomp (stripL s)
  obtain ⟨t, ht⟩ := stripL_decomp s
  rw [ht, hu]
  exact occursIn_append_right pat t _ (occursIn_append_left pat _ u h)

/-! ## Facts about blank-line splitting and joining -/

theorem splitNN_ne_nil : ∀ s, splitNN s ≠ []
  | [] => by simp [splitNN]
  | [c] => by simp [splitNN]
  | c1 :: c2 :: rest => by
    by_cases h : c1 = '\n' ∧ c2 = '\n'
    · simp [splitNN, h]
    · simp only [splitNN, if_neg h]
      rcases hs : splitNN (c2 :: rest) with _ | ⟨p, ps⟩ <;> simp

theorem splitNN_head_shape (c : Char) (rest : List Char) :
    (splitNN (c :: rest)).head? = some [] ∨
      ∃ p, (splitNN (c :: rest)).head? = some (c :: p) := by
  rcases rest with _ | ⟨c2, r2⟩
  · exact Or.inr ⟨[], rfl⟩
  · by_cases h : c = '\n' ∧ c2 = '\n'
    · left
      simp [splitNN, h]
    · right
      simp only [splitNN, if_neg h]
      rcases hs : splitNN (c2 :: r2) with _ | ⟨p, ps⟩
      · exact ⟨[], rfl⟩
      · exact ⟨p, rfl⟩

theorem splitNN_pieces_noNN : ∀ s, ∀ p ∈ splitNN s, occursIn ['\n', '\n'] p = false
  | [], p, hp => by
    simp [splitNN] at hp
    subst hp
    rfl
  | [c], p, hp => by
    simp [splitNN] at hp
    subst hp
    simp [occursIn, leadsWith]
  | c1 :: c2 :: rest, p, hp => by
    by_cases h : c1 = '\n' ∧ c2 = '\n'
    · rw [splitNN, if_pos h] at hp
      rcases List.mem_cons.mp hp with h1 | h1
      · subst h1; rfl
      · exact splitNN_pieces_noNN rest p h1
    · rw [splitNN, if_neg h] at hp
      rcases hs : splitNN (c2 :: rest) with _ | ⟨p0, ps⟩
      · exact absurd hs (splitNN_ne_nil (c2 :: rest))
      · rw [hs] at hp
        rcases List.mem_cons.mp hp with h1 | h1
        · subst h1
          have hp0 : occursIn ['\n', '\n'] p0 = false :=
            splitNN_pieces_noNN (c2 :: rest) p0 (by rw [hs]; exact List.mem_cons_self p0 ps)
          rw [occursIn, Bool.or_eq_false_iff]
          refine ⟨?_, hp0⟩
          by_cases hc1 : c1 = '\n'
          · subst hc1
            have hc2 : ¬ ('\n' : Char) = c2 := fun he => h ⟨rfl, he.symm⟩
            rcases splitNN_head_shape c2 rest with hh | ⟨p1, hh⟩ <;> rw [hs] at hh <;>
              simp at hh
            · subst hh
              simp [leadsWith]
            · rw [hh]
              simp [leadsWith, hc2]
          · have hc1n : ¬ ('\n' : Char) = c1 := fun he => hc1 he.symm
            simp [leadsWith, hc1n]
        · exact splitNN_pieces_noNN (c2 :: rest) p (by rw [hs]; exact List.mem_cons_of_mem p0 h1)

theorem splitNN_of_noNN : ∀ p, occursIn ['\n', '\n'] p = false → splitNN p = [p]
  | [], _ => rfl
  | [_], _ => rfl
  | c1 :: c2 :: rest, h => by
    rw [occursIn, Bool.or_eq_false_iff] at h
    obtain ⟨hlead, htail⟩ := h
    have hguard : ¬ (c1 = '\n' ∧ c2 = '\n') := by
      rintro ⟨rfl, rfl⟩
      simp [leadsWith] at hlead
    rw [splitNN, if_neg hguard, splitNN_of_noNN (c2 :: rest) htail]

theorem splitNN_append_sep : ∀ p r, occursIn ['\n', '\n'] p = false →
    p.getLast? ≠ some '\n' →
    splitNN (p ++ '\n' :: '\n' :: r) = p :: splitNN r
  | [], r, _, _ => by
    show splitNN ('\n' :: '\n' :: r) = [] :: splitNN r
    rw [splitNN, if_pos ⟨rfl, rfl⟩]
  | [c], r, _, hlast => by
    have hc : ¬ c = '\n' := fun hc => hlast (by simp [hc])
    have hguard : ¬ (c = '\n' ∧ ('\n' : Char) = '\n') := fun hg => hc hg.1
    have hinner : splitNN ('\n' :: '\n' :: r) = [] :: splitNN r := by
      rw [splitNN, if_pos ⟨rfl, rfl⟩]
    show splitNN (c :: '\n' :: '\n' :: r) = [c] :: splitNN r
    rw [splitNN, if_neg hguard, hinner]
  | c1 :: c2 :: rest, r, h, hlast => by
    rw [occursIn, Bool.or_eq_false_iff] at h
    obtain ⟨hlead, htail⟩ := h
    have hguard : ¬ (c1 = '\n' ∧ c2 = '\n') := by
      rintro ⟨rfl, rfl⟩
      simp [leadsWith] at hlead
    rw [List.getLast?_cons_cons] at hlast
    have ih := splitNN_append_sep (c2 :: rest) r htail hlast
    rw [List.cons_append] at ih ⊢
    rw [List.cons_append, splitNN, if_neg hguard, ih]

theorem splitNN_joinNN : ∀ L, L ≠ [] →
    (∀ p ∈ L, occursIn ['\n', '\n'] p = false ∧ p.getLast? ≠ some '\n') →
    splitNN (joinNN L) = L
  | [], hne, _ => absurd rfl hne
  | [p], _, hgood => by
    rw [joinNN, splitNN_of_noNN p (hgood p (by simp)).1]
  | p :: q :: L2, _, hgood => by
    rw [joinNN, splitNN_append_sep p _ (hgood p (by simp)).1 (hgood p (by simp)).2,
      splitNN_joinNN (q :: L2) (by simp)
        (fun x hx => hgood x (List.mem_cons_of_mem p hx))]

theorem joinNN_head? : ∀ (p : List Char) (L : List (List Char)), p ≠ [] →
    (joinNN (p :: L)).head? = p.head?
  | p, [], _ => rfl
  | p, q :: L2, hp => by
    rw [joinNN]
    rcases p with _ | ⟨c, rest⟩
    · exact absurd rfl hp
    · rfl

theorem joinNN_ne_nil (p : List Char) (L : List (List Char)) (hp : p ≠ []) :
    joinNN (p :: L) ≠ [] := by
  intro h
  have := joinNN_head? p L hp
  rw [h] at this
  rcases p with _ | ⟨c, rest⟩
  · exact absurd rfl hp
  · simp at this

theorem joinNN_getLast?_mem : ∀ L : List (List Char), L ≠ [] →
    (∀ q ∈ L, q ≠ []) → ∃ q ∈ L, (joinNN L).getLast? = q.getLast?
  | [], hne, _ => absurd rfl hne
  | [p], _, _ => ⟨p, by simp, rfl⟩
  | p :: q :: L2, _, hq => by
    obtain ⟨w, hw, hlast⟩ := joinNN_getLast?_mem (q :: L2) (by simp)
      (fun x hx => hq x (List.mem_cons_of_mem p hx))
    refine ⟨w, List.mem_cons_of_mem p hw, ?_⟩
    rw [joinNN]
    have hXne : ('\n' :: '\n' :: joinNN (q :: L2)) ≠ [] := by simp
    rw [List.getLast?_append_of_ne_nil _ hXne]
    have hJne : joinNN (q :: L2) ≠ [] := joinNN_ne_nil q L2 (hq q (by simp))
    rw [show ('\n' :: '\n' :: joinNN (q :: L2)) = ['\n', '\n'] ++ joinNN (q :: L2) from rfl,
      List.getLast?_append_of_ne_nil _ hJne]
    exact hlast

theorem map_fix {α : Type} (L : List α) (f : α → α) (h : ∀ x ∈ L, f x = x) :
    L.map f = L := by
  induction L with
  | nil => rfl
  | cons a l ih => simp [h a (by simp), ih (fun x hx => h x (by simp [hx]))]

theorem clean_head_not_ws (p : List Char) (hfix : pyStrip p = p) :
    ∀ c, p.head? = some c → pyWs c = false := by
  intro c hc
  rcases p with _ | ⟨a, rest⟩
  · simp at hc
  · simp at hc
    rw [← hc]
    exact pyStrip_head_not_ws (a :: rest) a rest hfix

theorem clean_getLast_not_ws (p : List Char) (hfix : pyStrip p = p) :
    ∀ c, p.getLast? = some c → pyWs c = false := by
  intro c hc
  rcases p with _ | ⟨a, rest⟩
  · simp at hc
  · exact pyStrip_getLast_not_ws (a :: rest) a c rest hfix hc

theorem clean_getLast_ne_nl (p : List Char) (hfix : pyStrip p = p) :
    p.getLast? ≠ some '\n' := by
  intro h
  have := clean_getLast_not_ws p hfix '\n' h
  exact absurd this (by decide)

theorem pyStrip_joinNN (L : List (List Char))
    (h : ∀ p ∈ L, p ≠ [] ∧ pyStrip p = p) : pyStrip (joinNN L) = joinNN L := by
  rcases L with _ | ⟨p, L2⟩
  · rfl
  · apply pyStrip_fix_of_clean
    · intro c hc
      rw [joinNN_head? p L2 (h p (by simp)).1] at hc
      exact clean_head_not_ws p (h p (by simp)).2 c hc
    · intro c hc
      obtain ⟨w, hw, hlast⟩ := joinNN_getLast?_mem (p :: L2) (by simp)
        (fun q hq => (h q hq).1)
      rw [hlast] at hc
      exact clean_getLast_not_ws w (h w hw).2 c hc

/-- Every paragraph `_format_response` keeps is non-empty, strip-fixed and
free of blank lines. -/
theorem format_pieces_good (s : List Char) :
    ∀ p ∈ ((splitNN (pyStrip s)).map pyStrip).filter (fun p => !p.isEmpty),
      p ≠ [] ∧ pyStrip p = p ∧ occursIn ['\n', '\n'] p = false := by
  intro p hp
  rw [List.mem_filter] at hp
  obtain ⟨hmem, hne⟩ := hp
  rw [List.mem_map] at hmem
  obtain ⟨q, hq, rfl⟩ := hmem
  refine ⟨by simpa using hne, pyStrip_idem q, ?_⟩
  rcases hb : occursIn ['\n', '\n'] (pyStrip q) with _ | _
  · rfl
  · have h2 := occursIn_pyStrip_mono ['\n', '\n'] q hb
    rw [splitNN_pieces_noNN (pyStrip s) q hq] at h2
    exact Bool.noConfusion h2

/-- The output of `_format_response` on any join of good paragraphs is a
fixpoint of the formatting pipeline. -/
theorem format_of_good_pieces (P : List (List Char))
    (hgood : ∀ p ∈ P, p ≠ [] ∧ pyStrip p = p ∧ occursIn ['\n', '\n'] p = false) :
    formatResponse ⟨joinNN P⟩ = ⟨joinNN P⟩ ∧
    pyStrip (joinNN P) = joinNN P ∧
    (joinNN P = [] ∨ ∀ p ∈ splitNN (joinNN P), p ≠ []) := by
  rcases P with _ | ⟨p0, P2⟩
  · exact ⟨rfl, rfl, Or.inl rfl⟩
  · have hstrip : pyStrip (joinNN (p0 :: P2)) = joinNN (p0 :: P2) :=
      pyStrip_joinNN _ (fun p hp => ⟨(hgood p hp).1, (hgood p hp).2.1⟩)
    have hsplit : splitNN (joinNN (p0 :: P2)) = p0 :: P2 :=
      splitNN_joinNN _ (by simp)
        (fun p hp => ⟨(hgood p hp).2.2, clean_getLast_ne_nl p (hgood p hp).2.1⟩)
    have hmap : (p0 :: P2).map pyStrip = p0 :: P2 :=
      map_fix _ _ (fun p hp => (hgood p hp).2.1)
    have hfilter : (p0 :: P2).filter (fun p => !p.isEmpty) = p0 :: P2 :=
      List.filter_eq_self.mpr (fun p hp => by simpa using (hgood p hp).1)
    refine ⟨?_, hstrip, Or.inr ?_⟩
    · show (⟨joinNN (((splitNN (pyStrip (joinNN (p0 :: P2)))).map pyStrip).filter
        (fun p => !p.isEmpty))⟩ : String) = ⟨joinNN (p0 :: P2)⟩
      rw [hstrip, hsplit, hmap, hfilter]
    · intro p hp
      rw [hsplit] at hp
      exact (hgood p hp).1

/-- C8: `_format_response` is idempotent, its output carries no leading or
trailing whitespace (it is a fixpoint of `strip`), and — unless the output
is empty — splitting the output at blank lines yields no empty paragraph. -/
theorem c8_format_idempotent (s : String) :
    formatResponse (formatResponse s) = formatResponse s ∧
    pyStrip (formatResponse s).data = (formatResponse s).data ∧
    ((formatResponse s).data = [] ∨ ∀ p ∈ splitNN (formatResponse s).data, p ≠ []) :=
  format_of_good_pieces
    (((splitNN (pyStrip s.data)).map pyStrip).filter (fun p => !p.isEmpty))
    (format_pieces_good s.data)
